import Mathlib

/-!
# Verification of the column profiling / schema inference engine

Shallow embedding of `profile_column` and `describe_asset_schema` from
`src/sap_datasphere_mcp/tools/tasks.py`.

Modelling conventions:
* Python scalars are the tagged variant `Val` (null, bool, int, float, text).
* Values produced by numeric coercion live in `PyFloat`: an exact rational
  together with the IEEE special values NaN, +inf and -inf, with IEEE
  comparison and arithmetic rules (NaN is incomparable and propagates;
  inf − inf = NaN; signed zero is not distinguished). Finite results are kept
  exact instead of rounded to 53 bits; the claims below only depend on values
  where double arithmetic is exact, except where noted.
* `int(0.7 * n)` in the role heuristic is modelled bit-exactly: 0.7 is the
  double 6305039478318694/2^53 and the product is rounded to 53 significant
  bits with ties to even (`py07int`). `int(0.5 * n)` is exact as `n / 2`, and
  `int(0.9 * n)` equals `⌊9n/10⌋` for every sample size reachable under the
  profiler's row cap (0.9·n overshoots 9n/10 by n/(5·2^53), far too little to
  cross an integer below astronomically large n), so those two stay as exact
  floors.
* Python `==` (used by `set`, `dict` keys and `in`) equates booleans, ints and
  floats of equal numeric value and compares text by content; this is `pyEq`.
* Python `str()` on scalars is `pyStr` (exact decimal expansion for floats).
* Python's `float(str(v))` best-effort parse is `toFloat?`: optional sign,
  then case-insensitively "nan", "inf"/"infinity", or a decimal numeral with
  optional fraction part, exponent and PEP-515 underscores (single, strictly
  between digits). Exponents at or beyond ±400 saturate to ±inf / 0.0 as
  CPython's parser does. Not modelled: transliteration of non-ASCII decimal
  digits (such text coerces to the same finite values as its ASCII form) and
  rounding of finite results to binary64.
* Raising `RuntimeError` is modelled as `Except.error`; the Python message
  quotes the asset and space names, reproduced here without the quote marks.
* Python's `sorted` is modelled by the stable `insertionSort`; stable sorts
  agree on totally ordered inputs, so this is faithful whenever the numeric
  subset is NaN-free (on NaN-containing inputs Python's sort order is an
  artifact of Timsort and is not modelled; the theorems below either restrict
  to NaN-free subsets or use singleton lists, which every sort fixes).
-/

inductive Val where
  | vNone : Val
  | vBool (b : Bool) : Val
  | vInt (n : ℤ) : Val
  | vFloat (q : ℚ) : Val
  | vStr (s : String) : Val
deriving DecidableEq, Repr

/-- Numeric view used by Python equality: `True == 1 == 1.0`. -/
def pyNum? : Val → Option ℚ
  | .vBool b => some (if b then 1 else 0)
  | .vInt n => some (n : ℚ)
  | .vFloat q => some q
  | _ => none

/-- Python `==` on the scalar universe. -/
def pyEq (a b : Val) : Bool :=
  match a, b with
  | .vStr s, .vStr t => decide (s = t)
  | .vNone, .vNone => true
  | x, y =>
    match pyNum? x, pyNum? y with
    | some p, some q => decide (p = q)
    | _, _ => false

/-- Decimal digits of a fractional part `0 ≤ q < 1`, with fuel. -/
def decDigits : ℕ → ℚ → String
  | 0, _ => ""
  | fuel + 1, q =>
    if q = 0 then ""
    else
      let d : ℤ := ⌊q * 10⌋
      toString d ++ decDigits fuel (q * 10 - (d : ℚ))

/-- Rendering of a nonnegative float value, Python style (`1.0`, `2.5`). -/
def floatStrNonneg (q : ℚ) : String :=
  let ip : ℤ := ⌊q⌋
  let fp : ℚ := q - (ip : ℚ)
  if fp = 0 then toString ip ++ ".0" else toString ip ++ "." ++ decDigits 64 fp

/-- Python `str()` on scalars. -/
def pyStr : Val → String
  | .vNone => "None"
  | .vBool true => "True"
  | .vBool false => "False"
  | .vInt n => toString n
  | .vFloat q => if q < 0 then "-" ++ floatStrNonneg (-q) else floatStrNonneg q
  | .vStr s => s

/-- Python `type(v).__name__`. -/
def typeName : Val → String
  | .vNone => "NoneType"
  | .vBool _ => "bool"
  | .vInt _ => "int"
  | .vFloat _ => "float"
  | .vStr _ => "str"

/-- ASCII lower-casing of one character, as Python `str.lower` does on the
column names and parse inputs occurring here. -/
def lowerChar (c : Char) : Char :=
  if 'A' ≤ c ∧ c ≤ 'Z' then Char.ofNat (c.toNat + 32) else c

/-- Python `str.lower()`. -/
def lowerStr (s : String) : String := String.mk (s.data.map lowerChar)

/-- A Python float value: an exact rational, or one of the IEEE special
values. Signed zero is not distinguished; finite arithmetic is kept exact. -/
inductive PyFloat where
  | fin (q : ℚ) : PyFloat
  | nan : PyFloat
  | inf : PyFloat
  | ninf : PyFloat
deriving DecidableEq, Repr

def PyFloat.isFinite : PyFloat → Bool
  | .fin _ => true
  | _ => false

/-- IEEE `<=`: NaN compares false with everything. -/
def PyFloat.le : PyFloat → PyFloat → Bool
  | .nan, _ => false
  | _, .nan => false
  | .ninf, _ => true
  | _, .inf => true
  | .inf, _ => false
  | _, .ninf => false
  | .fin a, .fin b => decide (a ≤ b)

/-- IEEE `<`: NaN compares false with everything. -/
def PyFloat.lt : PyFloat → PyFloat → Bool
  | .nan, _ => false
  | _, .nan => false
  | .inf, _ => false
  | .ninf, .ninf => false
  | .ninf, _ => true
  | _, .inf => true
  | .fin _, .ninf => false
  | .fin a, .fin b => decide (a < b)

def PyFloat.neg : PyFloat → PyFloat
  | .fin q => .fin (-q)
  | .nan => .nan
  | .inf => .ninf
  | .ninf => .inf

/-- IEEE addition: NaN propagates, opposite infinities give NaN. -/
def PyFloat.add : PyFloat → PyFloat → PyFloat
  | .nan, _ => .nan
  | _, .nan => .nan
  | .inf, .ninf => .nan
  | .ninf, .inf => .nan
  | .inf, _ => .inf
  | _, .inf => .inf
  | .ninf, _ => .ninf
  | _, .ninf => .ninf
  | .fin a, .fin b => .fin (a + b)

/-- IEEE subtraction, as addition of the negation. -/
def PyFloat.sub (a b : PyFloat) : PyFloat := PyFloat.add a (PyFloat.neg b)

/-- IEEE multiplication: NaN propagates, inf · 0 = NaN, signs of infinities. -/
def PyFloat.mul : PyFloat → PyFloat → PyFloat
  | .nan, _ => .nan
  | _, .nan => .nan
  | .inf, .inf => .inf
  | .inf, .ninf => .ninf
  | .ninf, .inf => .ninf
  | .ninf, .ninf => .inf
  | .inf, .fin b => if 0 < b then .inf else if b < 0 then .ninf else .nan
  | .fin a, .inf => if 0 < a then .inf else if a < 0 then .ninf else .nan
  | .ninf, .fin b => if 0 < b then .ninf else if b < 0 then .inf else .nan
  | .fin a, .ninf => if 0 < a then .ninf else if a < 0 then .inf else .nan
  | .fin a, .fin b => .fin (a * b)

/-- IEEE division, used by the profiler only with a positive finite integer
divisor (the count); a zero divisor would raise in Python and is mapped to
NaN here, unreachable in the modelled code path. -/
def PyFloat.div : PyFloat → PyFloat → PyFloat
  | .nan, _ => .nan
  | _, .nan => .nan
  | .inf, .fin b => if 0 < b then .inf else if b < 0 then .ninf else .nan
  | .ninf, .fin b => if 0 < b then .ninf else if b < 0 then .inf else .nan
  | .fin _, .inf => .fin 0
  | .fin _, .ninf => .fin 0
  | .inf, _ => .nan
  | .ninf, _ => .nan
  | .fin a, .fin b => if b = 0 then .nan else .fin (a / b)

/-- `sum(...)` over Python floats (integer start 0 coerces to float). -/
def pfSum (l : List PyFloat) : PyFloat := l.foldl PyFloat.add (PyFloat.fin 0)

/-- The sort order Python's `sorted` uses on the numeric subset; total (and
equal to the rational order) on NaN-free inputs. -/
def pfLe (a b : PyFloat) : Prop := PyFloat.le a b = true

instance : DecidableRel pfLe := fun a b => by unfold pfLe; infer_instance

def digitsVal (cs : List Char) : ℕ :=
  cs.foldl (fun n c => n * 10 + (c.toNat - 48)) 0

/-- Remove PEP-515 underscores: each `_` must sit strictly between digits
(the flag records whether the previously kept character was a digit). -/
def remUnd : Bool → List Char → Option (List Char)
  | _, [] => some []
  | prevDigit, '_' :: rest =>
    match rest with
    | d :: _ => if prevDigit && d.isDigit then remUnd false rest else none
    | [] => none
  | _, c :: rest => (remUnd c.isDigit rest).map (fun cs => c :: cs)

/-- Parse an unsigned decimal numeral `digits [. digits] [(e|E) [sign] digits]`
(after underscore removal), requiring at least one mantissa digit; exponents
at or past ±400 saturate exactly as CPython's parser overflows to inf or
underflows to 0.0. -/
def parseDecimal? (cs : List Char) : Option PyFloat :=
  let intPart := cs.takeWhile Char.isDigit
  let rest1 := cs.dropWhile Char.isDigit
  let fracState : Option (List Char × List Char) :=
    match rest1 with
    | '.' :: afterDot => some (afterDot.takeWhile Char.isDigit, afterDot.dropWhile Char.isDigit)
    | _ => some ([], rest1)
  match fracState with
  | none => none
  | some (fracPart, rest2) =>
    if intPart.isEmpty && fracPart.isEmpty then none
    else
      let mantissa : ℚ :=
        ((digitsVal intPart : ℕ) : ℚ) + ((digitsVal fracPart : ℕ) : ℚ) / (10 : ℚ) ^ fracPart.length
      let expVal? : Option ℤ :=
        match rest2 with
        | [] => some 0
        | e :: afterE =>
          if e = 'e' ∨ e = 'E' then
            let (sgn, ds) : ℤ × List Char :=
              match afterE with
              | '-' :: ds => (-1, ds)
              | '+' :: ds => (1, ds)
              | ds => (1, ds)
            if ds ≠ [] ∧ ds.all Char.isDigit then some (sgn * (digitsVal ds : ℕ)) else none
          else none
      match expVal? with
      | none => none
      | some e =>
        if 400 ≤ e then some (if mantissa = 0 then .fin 0 else .inf)
        else if e ≤ -400 then some (.fin 0)
        else
          let value : ℚ := if 0 ≤ e then mantissa * (10 : ℚ) ^ e.toNat
            else mantissa / (10 : ℚ) ^ (-e).toNat
          if (2 : ℚ) ^ 1024 ≤ value then some .inf else some (.fin value)

/-- Parse the body of `float(text)` after the optional sign: `nan`,
`inf`/`infinity` (case-insensitive) or a decimal numeral with underscores. -/
def parseBody? (cs : List Char) : Option PyFloat :=
  let low := cs.map lowerChar
  if low = "nan".data then some .nan
  else if low = "inf".data ∨ low = "infinity".data then some .inf
  else
    match remUnd false cs with
    | none => none
    | some cs2 => parseDecimal? cs2

/-- Strip leading and trailing whitespace, as `float()` does before parsing. -/
def trimChars (cs : List Char) : List Char :=
  ((cs.dropWhile Char.isWhitespace).reverse.dropWhile Char.isWhitespace).reverse

/-- Best-effort numeric coercion `float(str(v))`: native numerics pass through
(booleans are Python ints), text is parsed as a Python float literal;
failures yield `none`. -/
def toFloat? : Val → Option PyFloat
  | .vInt n => some (.fin ((n : ℤ) : ℚ))
  | .vFloat q => some (.fin q)
  | .vBool b => some (.fin (if b then 1 else 0))
  | .vStr s =>
    match trimChars s.data with
    | '-' :: rest => (parseBody? rest).map PyFloat.neg
    | '+' :: rest => parseBody? rest
    | cs => parseBody? cs
  | .vNone => none

/-- One step of Python dict frequency counting `freq[v] = freq.get(v, 0) + 1`:
the first-seen representative is the key; insertion order is preserved. -/
def bumpFreq : List (Val × ℕ) → Val → List (Val × ℕ)
  | [], v => [(v, 1)]
  | (k, c) :: rest, v =>
    if pyEq k v then (k, c + 1) :: rest else (k, c) :: bumpFreq rest v

/-- The frequency table over a list of values, in insertion order. -/
def pyFreq (vs : List Val) : List (Val × ℕ) := vs.foldl bumpFreq []

/-- `len(set(vs))` under Python equality. -/
def pySetSize (vs : List Val) : ℕ :=
  (vs.foldl (fun acc v => if acc.any (fun w => pyEq w v) then acc else v :: acc) []).length

/-- The deduplicate-and-cap loop shared by `profile_column` (cap 20) and
`describe_asset_schema` (cap 5): append first occurrences, stop once the
accumulated list reaches the cap. -/
def distinctCapped (cap : ℕ) : List Val → List Val → List Val
  | acc, [] => acc
  | acc, v :: rest =>
    let acc2 := if acc.any (fun w => pyEq w v) then acc else acc ++ [v]
    if cap ≤ acc2.length then acc2 else distinctCapped cap acc2 rest

/-- `[row[i] for row in rows if i < len(row)]`: column extraction that never
indexes past a row's end. `profile_column` uses index 0 with a guard `if row`,
which coincides with this at `i = 0`. -/
def columnValues (rows : List (List Val)) (i : ℕ) : List Val :=
  rows.filterMap (fun r => r[i]?)

/-- One step of type-frequency counting over `type(v).__name__` strings. -/
def bumpStrFreq : List (String × ℕ) → String → List (String × ℕ)
  | [], t => [(t, 1)]
  | (k, c) :: rest, t =>
    if k = t then (k, c + 1) :: rest else (k, c) :: bumpStrFreq rest t

def typeCounts (vs : List Val) : List (String × ℕ) :=
  (vs.map typeName).foldl bumpStrFreq []

/-- `sorted(type_counts.keys(), key=..., reverse=True)`: descending by count,
stable on ties. Python's sort is stable, and so is `insertionSort` (each
element is inserted before the equivalent elements that followed it), so the
two agree extensionally. -/
def orderedTypes (vs : List Val) : List String :=
  ((typeCounts vs).insertionSort (fun a b => b.2 ≤ a.2)).map (fun kv => kv.1)

/-- The `_percentile` closure of `profile_column` restricted to finite data,
in exact rational form: position `p/100·(n−1)`, exact element when the
position is integral, otherwise linear interpolation between the floor and
ceiling neighbours. `pfPercentile` below is the same algorithm over Python
floats; they agree on finite lists (`pfPercentile_map_fin`). -/
def percentile (l : List ℚ) (p : ℚ) : Option ℚ :=
  if l.length = 0 then none
  else if l.length = 1 then some (l.getD 0 0)
  else
    let pos : ℚ := p / 100 * ((l.length : ℚ) - 1)
    let lower : ℤ := ⌊pos⌋
    let upper : ℤ := ⌈pos⌉
    if lower = upper then some (l.getD lower.toNat 0)
    else
      let frac : ℚ := pos - (lower : ℚ)
      some (l.getD lower.toNat 0 + (l.getD upper.toNat 0 - l.getD lower.toNat 0) * frac)

structure NumericSummary where
  min : PyFloat
  max : PyFloat
  mean : PyFloat
  p25 : PyFloat
  p50 : PyFloat
  p75 : PyFloat
  iqr : PyFloat
  lower_fence : PyFloat
  upper_fence : PyFloat
  outlier_count : ℕ
deriving DecidableEq, Repr

/-- The numeric-coercible subset, in sample order. -/
def numericLike (vs : List Val) : List PyFloat := vs.filterMap toFloat?

/-- The `_percentile` closure of `profile_column` over the sorted numeric
subset, with float data: position `p/100·(n−1)` (exact in doubles at the
invoked ranks 25/50/75), exact element when the position is integral,
otherwise linear interpolation between the floor and ceiling neighbours.
Agrees with the rational `percentile` on finite data
(`pfPercentile_map_fin`). -/
def pfPercentile (l : List PyFloat) (p : ℚ) : Option PyFloat :=
  if l.length = 0 then none
  else if l.length = 1 then some (l.getD 0 (.fin 0))
  else
    let pos : ℚ := p / 100 * ((l.length : ℚ) - 1)
    let lower : ℤ := ⌊pos⌋
    let upper : ℤ := ⌈pos⌉
    if lower = upper then some (l.getD lower.toNat (.fin 0))
    else
      let frac : ℚ := pos - (lower : ℚ)
      some (PyFloat.add (l.getD lower.toNat (.fin 0))
        (PyFloat.mul
          (PyFloat.sub (l.getD upper.toNat (.fin 0)) (l.getD lower.toNat (.fin 0)))
          (.fin frac)))

/-- The numeric summary block of `profile_column`: absent when the numeric
subset is empty; `min`/`max` of the sorted subset are its first and last
elements. -/
def numericSummary (vs : List Val) : Option NumericSummary :=
  let nl := numericLike vs
  if nl.isEmpty then none
  else
    let s := nl.insertionSort pfLe
    let count := s.length
    let p25 := (pfPercentile s 25).getD (.fin 0)
    let p50 := (pfPercentile s 50).getD (.fin 0)
    let p75 := (pfPercentile s 75).getD (.fin 0)
    let iqr := PyFloat.sub p75 p25
    let lf := PyFloat.sub p25 (PyFloat.mul (.fin 1.5) iqr)
    let uf := PyFloat.add p75 (PyFloat.mul (.fin 1.5) iqr)
    some {
      min := s.headD (.fin 0)
      max := s.getLastD (.fin 0)
      mean := PyFloat.div (pfSum s) (.fin (count : ℚ))
      p25 := p25
      p50 := p50
      p75 := p75
      iqr := iqr
      lower_fence := lf
      upper_fence := uf
      outlier_count := s.countP (fun x => PyFloat.lt x lf || PyFloat.lt uf x) }

structure TopEntry where
  value : Val
  count : ℕ
  fraction : ℚ
deriving DecidableEq, Repr

structure CategoricalSummary where
  total_sampled : ℕ
  unique_values : ℕ
  top_values : List TopEntry
  concentration : Option ℚ
deriving DecidableEq, Repr

/-- Lexicographic "less or equal" on character lists by code point — Python's
string comparison. -/
def charListLe : List Char → List Char → Bool
  | [], _ => true
  | _ :: _, [] => false
  | a :: as, b :: bs => a < b || (a == b && charListLe as bs)

/-- The sort key `(-count, str(value))` of the categorical ranking, as a
"less or equal" relation: descending count, ties by ascending string form. -/
def catKeyLe (a b : Val × ℕ) : Prop :=
  b.2 < a.2 ∨ (a.2 = b.2 ∧ charListLe (pyStr a.1).data (pyStr b.1).data = true)

instance : DecidableRel catKeyLe := fun a b => by unfold catKeyLe; infer_instance

/-- The categorical summary block of `profile_column`: gate
`unique ≤ 50 or unique ≤ max(1, n // 2)`, top 20 entries by the ranking key,
concentration from the head entry. -/
def categoricalSummary (vs : List Val) : Option CategoricalSummary :=
  if vs.isEmpty then none
  else
    let freq := pyFreq vs
    let uniqueValues := freq.length
    let nonNullCount := vs.length
    if uniqueValues ≤ 50 ∨ uniqueValues ≤ max 1 (nonNullCount / 2) then
      let sortedItems := freq.insertionSort catKeyLe
      let topValues := (sortedItems.take 20).map
        (fun kv => TopEntry.mk kv.1 kv.2 ((kv.2 : ℚ) / (nonNullCount : ℚ)))
      some {
        total_sampled := nonNullCount
        unique_values := uniqueValues
        top_values := topValues
        concentration := topValues.head?.map (fun e => e.fraction) }
    else none

/-- Does the character list start with the given pattern? -/
def startsWithChars : List Char → List Char → Bool
  | [], _ => true
  | _ :: _, [] => false
  | p :: ps, c :: cs => p == c && startsWithChars ps cs

/-- Does the pattern occur as a contiguous subsequence? -/
def hasSub (t : List Char) : List Char → Bool
  | [] => t.isEmpty
  | c :: rest => startsWithChars t (c :: rest) || hasSub t rest

/-- Python substring membership `t in s`. -/
def containsTok (s t : String) : Bool := hasSub t.data s.data

def roleTokens : List String := ["id", "_id", "key", "_key"]

/-- Binary digit count of a natural number, with fuel (2048 covers every
value a Python float computation can produce before overflowing). -/
def bitLen : ℕ → ℕ → ℕ
  | 0, _ => 0
  | fuel + 1, n => if n = 0 then 0 else bitLen fuel (n / 2) + 1

/-- Round a natural number to 53 significant bits, ties to even — the IEEE
binary64 rounding of an exact integer significand. -/
def rnInt53 (a : ℕ) : ℕ :=
  let L := bitLen 2048 a
  if L ≤ 53 then a
  else
    let k := L - 53
    let q := a / 2 ^ k
    let r := a % 2 ^ k
    let half := 2 ^ (k - 1)
    if half < r ∨ (r = half ∧ q % 2 = 1) then (q + 1) * 2 ^ k else q * 2 ^ k

/-- The double closest to 0.7 is `m07 / 2^53`. -/
def m07 : ℕ := 6305039478318694

/-- `int(0.7 * n)` computed bit-exactly: the double 0.7 is `m07/2^53`, float
multiplication rounds the exact product to 53 significant bits with ties to
even, and `int` truncates (floors, for nonnegative values). Diverges from the
exact floor `⌊7n/10⌋` at reachable sizes (first at n = 90, where the result
is 62, not 63); checked against CPython for all n ≤ 10^6. -/
def py07int (n : ℕ) : ℕ := rnInt53 (m07 * n) / 2 ^ 53

/-- The role heuristic of `profile_column`. `int(0.9·n)` and `int(0.5·n)` are
the exact floors `9n/10` and `n/2` (written `5n/10`): 0.5·n is exact in
doubles, and 0.9·n exceeds `9n/10` by only `n/(5·2^53)`, never enough to
cross an integer at reachable n. `int(0.7·n)` is the bit-exact `py07int`,
whose IEEE rounding matters at reachable n. Note the code labels the first
rule `"id"` and reaches the dimension rule only when the column is not
numeric-like. -/
def roleHint (columnName : String) (nonNullCount distinctNonNull : ℕ)
    (isNumeric : Bool) : Option String :=
  let nameLower := lowerStr columnName
  if 0 < nonNullCount then
    if roleTokens.any (fun t => containsTok nameLower t) &&
        decide (max 1 (9 * nonNullCount / 10) ≤ distinctNonNull) then
      some "id"
    else if isNumeric then
      if decide (max 5 (5 * nonNullCount / 10) < distinctNonNull) then some "measure"
      else none
    else
      if decide (distinctNonNull ≤ max 50 (py07int nonNullCount)) then some "dimension"
      else none
  else none

structure ColumnProfile where
  column : String
  types : Option (List String)
  total_count : ℕ
  null_count : ℕ
  non_null_count : ℕ
  distinct_sampled : ℕ
  example_values : Option (List Val)
  numeric_summary : Option NumericSummary
  categorical_summary : Option CategoricalSummary
  role_hint : Option String
deriving DecidableEq, Repr

def isNotNone (v : Val) : Bool := decide (v ≠ Val.vNone)

/-- `[row[0] for row in rows if row]`: the single-column value vector of
`profile_column` (equals `columnValues rows 0`). -/
def profileValues (rows : List (List Val)) : List Val :=
  rows.filterMap (fun r => r[0]?)

/-- The non-null subset of the profiled column. -/
def nonNullValuesOf (rows : List (List Val)) : List Val :=
  (profileValues rows).filter isNotNone

/-- The profiling core of `profile_column`, after the sample has been fetched:
raises (errors) when the preview returned no columns, otherwise assembles the
profile record. The `meta` block (request bookkeeping) is not modelled. -/
def profileColumn (spaceId assetName columnName : String)
    (columns : List String) (rows : List (List Val)) : Except String ColumnProfile :=
  if columns.isEmpty then
    Except.error ("Preview for asset " ++ assetName ++ " in space " ++ spaceId ++
      " returned no columns.")
  else
    let values := profileValues rows
    let total := values.length
    let nonNullValues := nonNullValuesOf rows
    let nullCount := total - nonNullValues.length
    let distinctValues := distinctCapped 20 [] nonNullValues
    let orderedTys := orderedTypes nonNullValues
    Except.ok {
      column := columnName
      types := if orderedTys.isEmpty then none else some orderedTys
      total_count := total
      null_count := nullCount
      non_null_count := total - nullCount
      distinct_sampled := distinctValues.length
      example_values := if distinctValues.isEmpty then none else some distinctValues
      numeric_summary := numericSummary nonNullValues
      categorical_summary := categoricalSummary nonNullValues
      role_hint := roleHint columnName nonNullValues.length (pySetSize nonNullValues)
        (!(numericLike nonNullValues).isEmpty) }

structure ColumnSchemaSummary where
  name : String
  python_types : Option (List String)
  nonnull_count : Option ℕ
  total_count : Option ℕ
  example_values : Option (List Val)
deriving DecidableEq, Repr

/-- The per-column loop of `describe_asset_schema`: lightweight per-column
summaries with at most 5 first-seen-deduplicated example values (drawn from
all values of the column, nulls included). -/
def inferSchema (columns : List String) (rows : List (List Val)) : List ColumnSchemaSummary :=
  columns.enum.map (fun ic =>
    let values := columnValues rows ic.1
    let total := values.length
    let nonNullValues := values.filter isNotNone
    let orderedTys := orderedTypes nonNullValues
    let exampleValues := distinctCapped 5 [] values
    { name := ic.2
      python_types := if orderedTys.isEmpty then none else some orderedTys
      nonnull_count := if total = 0 then none else some nonNullValues.length
      total_count := if total = 0 then none else some total
      example_values := if exampleValues.isEmpty then none else some exampleValues })

/-- The percentile rule exactly as the spec words it (§4.2 step 4), for a
non-empty list: position `p/100 × (n−1)`; the element there when the position
is an exact integer, otherwise linear interpolation between the floor and
ceiling neighbours weighted by the fractional part; for `n = 1` the single
value. Used to check the code's `_percentile` against the spec (claim C4). -/
def specPercentile (l : List ℚ) (p : ℚ) : ℚ :=
  if l.length = 1 then l.getD 0 0
  else
    let pos : ℚ := p / 100 * ((l.length : ℚ) - 1)
    if pos.den = 1 then l.getD pos.num.toNat 0
    else
      l.getD ⌊pos⌋.toNat 0 + (l.getD ⌈pos⌉.toNat 0 - l.getD ⌊pos⌋.toNat 0) * (pos - (⌊pos⌋ : ℚ))

/-- The sample of §8: one clear outlier at 100. -/
def sampleC6 : List (List Val) :=
  [[Val.vInt 10], [Val.vInt 10], [Val.vInt 20], [Val.vInt 20], [Val.vInt 30],
   [Val.vInt 30], [Val.vInt 40], [Val.vInt 40], [Val.vInt 50], [Val.vInt 100]]

/-- Ten distinct integer ids, as in the `CUSTOMER_ID` test. -/
def rowsCustomerId : List (List Val) := (List.range 10).map (fun i => [Val.vInt ((i : ℤ) + 1)])

/-- A numeric low-cardinality column: nine 1s and one 2. -/
def rowsAmountLowCard : List (List Val) :=
  (List.replicate 9 [Val.vInt 1]) ++ [[Val.vInt 2]]

/-- Proof helper: the interpolation value at rational position `pos` over a
list; `percentile` always returns `interpAt` of its position (the exact-hit
branch is the `frac = 0` case). -/
def interpAt (l : List ℚ) (pos : ℚ) : ℚ :=
  l.getD ⌊pos⌋.toNat 0 +
    (l.getD ⌈pos⌉.toNat 0 - l.getD ⌊pos⌋.toNat 0) * (pos - (⌊pos⌋ : ℚ))

/-- C1 (counterexample): for a fetched sample with zero columns the profiling
operation does not return a zero-count profile — it raises (errors), so the
claim as stated is false at this input. -/
theorem C1_zero_columns_errors :
    profileColumn "SPACE" "ASSET" "COL" [] [] =
      Except.error "Preview for asset ASSET in space SPACE returned no columns." := rfl

/-- C1 (amended): for every fetched sample with at least one column and zero
rows, profiling does not raise; it returns a profile whose total, null and
non-null counts are zero and whose numeric summary, categorical summary and
role hint are all absent. -/
theorem C1_zero_rows_zero_profile (spaceId assetName columnName col : String)
    (cols : List String) :
    profileColumn spaceId assetName columnName (col :: cols) [] =
      Except.ok (ColumnProfile.mk columnName none 0 0 0 0 none none none none) := rfl

/-- C2 (counterexample): the all-distinct 10-row column named CUSTOMER_ID is
classified `"id"`, not `"identifier"`, so the claim's literal string is wrong. -/
theorem C2_customer_id_yields_id :
    (profileColumn "SPACE" "ASSET" "CUSTOMER_ID" ["CUSTOMER_ID"] rowsCustomerId).toOption.map
        (fun p => p.role_hint) = some (some "id") ∧
      (some "id" : Option String) ≠ some "identifier" :=
  ⟨by decide, by decide⟩

/-- C2 (amended): for every profiled column whose lowercased name contains one
of the tokens id, _id, key, _key and whose distinct non-null count is at least
90% of the non-null count (non-null count > 0, stated integrally as
`9·nonNull ≤ 10·distinct`), the role hint is the string `"id"`. -/
theorem C2_identifier_rule (columnName : String) (nonNull distinct : ℕ) (isNumeric : Bool)
    (htok : roleTokens.any (fun t => containsTok (lowerStr columnName) t) = true)
    (hpos : 0 < nonNull) (h90 : 9 * nonNull ≤ 10 * distinct) :
    roleHint columnName nonNull distinct isNumeric = some "id" := by
  have hcard : max 1 (9 * nonNull / 10) ≤ distinct := by omega
  unfold roleHint
  simp [htok, hpos, hcard]

theorem C2_identifier_rule_witness :
    (roleTokens.any (fun t => containsTok (lowerStr "CUSTOMER_ID") t) = true) ∧
      0 < 10 ∧ 9 * 10 ≤ 10 * 10 ∧ roleHint "CUSTOMER_ID" 10 10 true = some "id" :=
  ⟨by decide, by decide, by decide,
    C2_identifier_rule "CUSTOMER_ID" 10 10 true (by decide) (by decide) (by decide)⟩

/-- C3 (counterexample): a numeric-like low-cardinality column (nine 1s, one
2, name "amount") satisfies the claim's premises — the identifier rule does
not fire, the measure threshold fails, and the distinct count is within the
dimension threshold — yet the profiler returns no role hint at all, not
`"dimension"`. -/
theorem C3_numeric_low_cardinality_no_hint :
    (profileColumn "SPACE" "ASSET" "amount" ["amount"] rowsAmountLowCard).toOption.map
        (fun p => p.role_hint) = some none ∧
      (nonNullValuesOf rowsAmountLowCard).length = 10 ∧
      pySetSize (nonNullValuesOf rowsAmountLowCard) = 2 ∧
      ¬ max 5 (5 * 10 / 10) < 2 ∧ 2 ≤ max 50 (py07int 10) ∧
      (none : Option String) ≠ some "dimension" :=
  ⟨by decide, by decide, by decide, by decide, by decide, by decide⟩

/-- C3 (amended): when the identifier rule does not fire and the non-null
count is positive, the dimension rule applies only to columns that are not
numeric-like: a non-numeric column with distinct count within
`max(50, int(0.7·nonNull))` (the threshold computed in IEEE double
arithmetic, `py07int`) is labelled `"dimension"`, while a numeric-like column
that fails the measure threshold receives no hint at all. -/
theorem C3_dimension_rule (columnName : String) (nonNull distinct : ℕ)
    (hpos : 0 < nonNull)
    (hid : ¬ (roleTokens.any (fun t => containsTok (lowerStr columnName) t) = true ∧
      max 1 (9 * nonNull / 10) ≤ distinct)) :
    (distinct ≤ max 50 (py07int nonNull) →
      roleHint columnName nonNull distinct false = some "dimension") ∧
    (¬ max 5 (5 * nonNull / 10) < distinct →
      roleHint columnName nonNull distinct true = none) := by
  unfold roleHint
  by_cases htok : roleTokens.any (fun t => containsTok (lowerStr columnName) t) = true
  · have hcard : ¬ max 1 (9 * nonNull / 10) ≤ distinct := fun hc => hid ⟨htok, hc⟩
    constructor
    · intro hdim
      simp [htok, hpos, hcard, hdim]
    · intro hmeas
      simp [htok, hpos, hcard, hmeas]
  · constructor
    · intro hdim
      simp [htok, hpos, hdim]
    · intro hmeas
      simp [htok, hpos, hmeas]

theorem C3_dimension_rule_witness :
    0 < 10 ∧ roleHint "status" 10 3 false = some "dimension" ∧
      roleHint "status" 10 3 true = none :=
  ⟨by decide,
    (C3_dimension_rule "status" 10 3 (by decide) (by decide)).1 (by decide),
    (C3_dimension_rule "status" 10 3 (by decide) (by decide)).2 (by decide)⟩

/-- C9: a row shorter than the column index contributes nothing to the
extracted column vector used by `describe_asset_schema` (any index) and
`profile_column` (index 0): appending such a row changes neither the values,
nor the total count, nor the non-null count. -/
theorem C9_missing_trailing_values_absent (rows : List (List Val)) (r : List Val) (i : ℕ)
    (h : r.length ≤ i) :
    columnValues (rows ++ [r]) i = columnValues rows i ∧
    (columnValues (rows ++ [r]) i).length = (columnValues rows i).length ∧
    ((columnValues (rows ++ [r]) i).filter isNotNone).length =
      ((columnValues rows i).filter isNotNone).length ∧
    (i = 0 → profileValues (rows ++ [r]) = profileValues rows) := by
  have h1 : columnValues (rows ++ [r]) i = columnValues rows i := by
    unfold columnValues
    rw [List.filterMap_append]
    simp [List.getElem?_eq_none h]
  refine ⟨h1, by rw [h1], by rw [h1], ?_⟩
  rintro rfl
  exact h1

theorem C9_missing_trailing_values_absent_witness :
    ([] : List Val).length ≤ 0 ∧
      columnValues ([[Val.vInt 1]] ++ [[]]) 0 = columnValues [[Val.vInt 1]] 0 :=
  ⟨by decide, (C9_missing_trailing_values_absent [[Val.vInt 1]] [] 0 (by decide)).1⟩

/-- C10: the categorical frequency table groups by Python value equality, not
by type-and-value: the integer 1, the float 1.0 and the boolean True all fall
into one category of count 3 (keyed by the first-seen representative), while
the text "1" stays a distinct category, so unique_values counts 2 categories
on this input. -/
theorem C10_value_equality_grouping :
    pyFreq [Val.vInt 1, Val.vFloat 1, Val.vBool true, Val.vStr "1"] =
        [(Val.vInt 1, 3), (Val.vStr "1", 1)] ∧
      (categoricalSummary [Val.vInt 1, Val.vFloat 1, Val.vBool true, Val.vStr "1"]).map
        (fun c => c.unique_values) = some 2 :=
  ⟨by decide, by decide⟩

/-- C4: for every non-empty numeric list and every percentile rank, the code's
`_percentile` computes exactly the spec's rule: the element at position
`p/100 × (n−1)` when that position is an exact integer, otherwise the linear
interpolation between the floor and ceiling neighbours weighted by the
fractional part; for `n = 1` the single value is returned. -/
theorem C4_percentile_matches_spec (l : List ℚ) (p : ℚ) (h : l ≠ []) :
    percentile l p = some (specPercentile l p) := by
  have h0 : l.length ≠ 0 := by simpa using h
  unfold percentile specPercentile
  by_cases h1 : l.length = 1
  · simp [h0, h1]
  · simp only [h0, h1, if_false, ite_false]
    set pos : ℚ := p / 100 * ((l.length : ℚ) - 1) with hposdef
    by_cases hden : pos.den = 1
    · have hq : ((pos.num : ℤ) : ℚ) = pos := (Rat.den_eq_one_iff pos).mp hden
      have hfl : ⌊pos⌋ = pos.num := by rw [← hq]; exact Int.floor_intCast _
      have hcl : ⌈pos⌉ = pos.num := by rw [← hq]; exact Int.ceil_intCast _
      rw [if_pos (by rw [hfl, hcl]), if_pos hden, hfl]
    · have hne : ⌊pos⌋ ≠ ⌈pos⌉ := by
        intro heq
        have hle : pos ≤ ((⌊pos⌋ : ℤ) : ℚ) := by
          have hc := Int.le_ceil pos
          rw [← heq] at hc
          exact_mod_cast hc
        have hge : ((⌊pos⌋ : ℤ) : ℚ) ≤ pos := Int.floor_le pos
        have hq : pos = ((⌊pos⌋ : ℤ) : ℚ) := le_antisymm hle hge
        have : pos.den = 1 := by rw [hq]; exact Rat.den_intCast _
        exact hden this
      rw [if_neg hne, if_neg hden]

theorem C4_percentile_matches_spec_witness :
    ([(1 : ℚ), 2] ≠ []) ∧ percentile [(1 : ℚ), 2] 25 = some (specPercentile [(1 : ℚ), 2] 25) :=
  ⟨by decide, C4_percentile_matches_spec [(1 : ℚ), 2] 25 (by decide)⟩

/-- Python equality is reflexive on the modelled scalars. -/
theorem pyEq_refl (v : Val) : pyEq v v = true := by
  cases v <;> simp [pyEq, pyNum?]

theorem distinctCapped_length_le (cap : ℕ) :
    ∀ (l acc : List Val), acc.length < cap → (distinctCapped cap acc l).length ≤ cap
  | [], acc, h => by
    simpa [distinctCapped] using Nat.le_of_lt h
  | v :: rest, acc, h => by
    simp only [distinctCapped]
    set acc2 := if acc.any (fun w => pyEq w v) then acc else acc ++ [v] with hacc2
    have hlen : acc2.length ≤ acc.length + 1 := by
      rw [hacc2]; split <;> simp
    by_cases hc : cap ≤ acc2.length
    · rw [if_pos hc]
      omega
    · rw [if_neg hc]
      exact distinctCapped_length_le cap rest acc2 (by omega)

theorem distinctCapped_spec (cap : ℕ) :
    ∀ (l acc : List Val), List.Pairwise (fun a b => pyEq a b = false) acc →
      ∃ s, distinctCapped cap acc l = acc ++ s ∧ s.Sublist l ∧
        List.Pairwise (fun a b => pyEq a b = false) (acc ++ s)
  | [], acc, hpw => ⟨[], by simp [distinctCapped], List.nil_sublist _, by simpa using hpw⟩
  | v :: rest, acc, hpw => by
    simp only [distinctCapped]
    by_cases hmem : acc.any (fun w => pyEq w v) = true
    · simp only [hmem, if_true]
      by_cases hc : cap ≤ acc.length
      · exact ⟨[], by rw [if_pos hc, List.append_nil], List.nil_sublist _, by simpa using hpw⟩
      · obtain ⟨s, heq, hsub, hpw2⟩ := distinctCapped_spec cap rest acc hpw
        exact ⟨s, by rw [if_neg hc, heq], hsub.cons v, hpw2⟩
    · simp only [if_neg hmem]
      have hnotin : ∀ w ∈ acc, pyEq w v = false := by
        intro w hw
        by_contra hne
        exact hmem (List.any_eq_true.mpr ⟨w, hw, by simpa using hne⟩)
      have hpw2 : List.Pairwise (fun a b => pyEq a b = false) (acc ++ [v]) := by
        rw [List.pairwise_append]
        exact ⟨hpw, List.pairwise_singleton _ _, fun a ha b hb => by
          rw [List.mem_singleton] at hb; subst hb; exact hnotin a ha⟩
      by_cases hc : cap ≤ (acc ++ [v]).length
      · exact ⟨[v], by rw [if_pos hc], (List.nil_sublist rest).cons₂ v, hpw2⟩
      · obtain ⟨s, heq, hsub, hpw3⟩ := distinctCapped_spec cap rest (acc ++ [v]) hpw2
        refine ⟨v :: s, by rw [if_neg hc, heq, List.append_assoc, List.singleton_append],
          hsub.cons₂ v, ?_⟩
        rwa [List.append_assoc, List.singleton_append] at hpw3

theorem profileColumn_ok_eq (spaceId assetName columnName : String)
    (cols : List String) (rows : List (List Val)) (p : ColumnProfile)
    (h : profileColumn spaceId assetName columnName cols rows = Except.ok p) :
    p = ColumnProfile.mk columnName
      (if (orderedTypes (nonNullValuesOf rows)).isEmpty then none
        else some (orderedTypes (nonNullValuesOf rows)))
      (profileValues rows).length
      ((profileValues rows).length - (nonNullValuesOf rows).length)
      ((profileValues rows).length -
        ((profileValues rows).length - (nonNullValuesOf rows).length))
      (distinctCapped 20 [] (nonNullValuesOf rows)).length
      (if (distinctCapped 20 [] (nonNullValuesOf rows)).isEmpty then none
        else some (distinctCapped 20 [] (nonNullValuesOf rows)))
      (numericSummary (nonNullValuesOf rows))
      (categoricalSummary (nonNullValuesOf rows))
      (roleHint columnName (nonNullValuesOf rows).length (pySetSize (nonNullValuesOf rows))
        (!(numericLike (nonNullValuesOf rows)).isEmpty)) := by
  unfold profileColumn at h
  split at h
  · exact absurd h (by simp)
  · exact (Except.ok.inj h).symm

/-- C8: the example_values list returned by column profiling has no duplicate
entries (under Python equality), preserves first-seen order (it is a sublist
of the column's non-null values) and holds at most 20 entries; likewise the
per-column example_values of schema inference has no duplicates, preserves
first-seen order over all of the column's values, and holds at most 5
entries. -/
theorem C8_example_values_dedup (spaceId assetName columnName : String)
    (cols : List String) (rows : List (List Val)) :
    (∀ p, profileColumn spaceId assetName columnName cols rows = Except.ok p →
      ∀ l, p.example_values = some l →
        l.length ≤ 20 ∧ l.Sublist (nonNullValuesOf rows) ∧
          List.Pairwise (fun a b => pyEq a b = false) l ∧ l.Nodup) ∧
    (∀ i c, (inferSchema cols rows)[i]? = some c →
      ∀ l, c.example_values = some l →
        l.length ≤ 5 ∧ l.Sublist (columnValues rows i) ∧
          List.Pairwise (fun a b => pyEq a b = false) l ∧ l.Nodup) := by
  have main : ∀ (cap : ℕ) (vs : List Val), 0 < cap →
      (distinctCapped cap [] vs).length ≤ cap ∧ (distinctCapped cap [] vs).Sublist vs ∧
        List.Pairwise (fun a b => pyEq a b = false) (distinctCapped cap [] vs) ∧
        (distinctCapped cap [] vs).Nodup := by
    intro cap vs hcap
    obtain ⟨s, heq, hsub, hpw⟩ := distinctCapped_spec cap vs [] List.Pairwise.nil
    rw [List.nil_append] at heq hpw
    rw [heq]
    refine ⟨?_, hsub, hpw, ?_⟩
    · rw [← heq]; exact distinctCapped_length_le cap vs [] (by simpa using hcap)
    · exact List.Pairwise.imp (fun hab hEq => by
        subst hEq; simp [pyEq_refl] at hab) hpw
  constructor
  · intro p hp l hl
    have hpe := profileColumn_ok_eq spaceId assetName columnName cols rows p hp
    subst hpe
    simp only at hl
    by_cases hne : (distinctCapped 20 [] (nonNullValuesOf rows)).isEmpty = true
    · simp [hne] at hl
    · rw [if_neg (by simpa using hne)] at hl
      obtain rfl := (Option.some.inj hl).symm
      exact main 20 (nonNullValuesOf rows) (by omega)
  · intro i c hc l hl
    unfold inferSchema at hc
    simp only [List.getElem?_map] at hc
    rcases he : (cols.enum)[i]? with _ | ic
    · rw [he] at hc; simp at hc
    · rw [he] at hc
      have hi : ic.1 = i := by
        have h2 : (cols.enum)[i]? = cols[i]?.map (fun a => (i, a)) := by simp
        rw [he] at h2
        rcases h3 : cols[i]? with _ | col
        · rw [h3] at h2; simp at h2
        · rw [h3] at h2
          simp only [Option.map_some'] at h2
          rw [Option.some.inj h2]
      simp only [Option.map_some'] at hc
      obtain rfl := (Option.some.inj hc).symm
      simp only [hi] at hl
      by_cases hne : (distinctCapped 5 [] (columnValues rows i)).isEmpty = true
      · simp [hne] at hl
      · rw [if_neg (by simpa using hne)] at hl
        obtain rfl := (Option.some.inj hl).symm
        exact main 5 (columnValues rows i) (by omega)

theorem C8_example_values_dedup_witness :
    [Val.vNone].length ≤ 5 ∧ [Val.vNone].Sublist (columnValues [[Val.vNone]] 0) ∧
      List.Pairwise (fun a b => pyEq a b = false) [Val.vNone] ∧ [Val.vNone].Nodup :=
  (C8_example_values_dedup "S" "A" "C" ["C"] [[Val.vNone]]).2 0
    (ColumnSchemaSummary.mk "C" none (some 0) (some 1) (some [Val.vNone])) (by decide)
    [Val.vNone] (by decide)

/-- Proof helper: `getD` with an in-range index. -/
theorem getD_eq_getElem_of_lt (l : List ℚ) (n : ℕ) (h : n < l.length) :
    l.getD n 0 = l[n] := by
  rw [List.getD_eq_getElem?_getD, List.getElem?_eq_getElem h, Option.getD_some]

theorem sorted_getD_mono {l : List ℚ} (hs : List.Sorted (· ≤ ·) l) {i j : ℕ}
    (hij : i ≤ j) (hj : j < l.length) : l.getD i 0 ≤ l.getD j 0 := by
  have hi : i < l.length := lt_of_le_of_lt hij hj
  rw [getD_eq_getElem_of_lt _ _ hi, getD_eq_getElem_of_lt _ _ hj]
  have h := hs.rel_get_of_le (a := ⟨i, hi⟩) (b := ⟨j, hj⟩) hij
  simpa using h

theorem percentile_eq_interpAt (l : List ℚ) (p : ℚ) (h : l ≠ []) :
    percentile l p = some (interpAt l (p / 100 * ((l.length : ℚ) - 1))) := by
  have h0 : l.length ≠ 0 := by simpa using h
  unfold percentile interpAt
  by_cases h1 : l.length = 1
  · rw [if_neg h0, if_pos h1, h1]
    norm_num
  · rw [if_neg h0, if_neg h1]
    set pos : ℚ := p / 100 * ((l.length : ℚ) - 1) with hposdef
    by_cases heq : ⌊pos⌋ = ⌈pos⌉
    · rw [if_pos heq, ← heq]
      ring_nf
    · rw [if_neg heq]

theorem interpAt_mono {l : List ℚ} (hs : List.Sorted (· ≤ ·) l) (hl : 1 ≤ l.length)
    {a b : ℚ} (h0 : 0 ≤ a) (hab : a ≤ b) (hb : b ≤ (l.length : ℚ) - 1) :
    interpAt l a ≤ interpAt l b := by
  have hb0 : 0 ≤ b := le_trans h0 hab
  have hna0 : 0 ≤ ⌊a⌋ := Int.le_floor.mpr (by exact_mod_cast h0)
  have hnb0 : 0 ≤ ⌊b⌋ := Int.le_floor.mpr (by exact_mod_cast hb0)
  have hnab : ⌊a⌋ ≤ ⌊b⌋ := Int.floor_le_floor hab
  have hcab : ⌈a⌉ ≤ ⌈b⌉ := Int.ceil_le_ceil hab
  have hfca : ⌊a⌋ ≤ ⌈a⌉ := Int.floor_le_ceil a
  have hfcb : ⌊b⌋ ≤ ⌈b⌉ := Int.floor_le_ceil b
  have hub : ⌈b⌉ ≤ (l.length : ℤ) - 1 := by
    rw [Int.ceil_le]
    push_cast
    exact hb
  have hua : ⌈a⌉ ≤ (l.length : ℤ) - 1 := le_trans hcab hub
  have hia : ⌈a⌉.toNat < l.length := by omega
  have hib : ⌈b⌉.toNat < l.length := by omega
  have hifb : ⌊b⌋.toNat < l.length := by omega
  have hifa : ⌊a⌋.toNat < l.length := by omega
  have hfa0 : 0 ≤ a - (⌊a⌋ : ℚ) := sub_nonneg.mpr (Int.floor_le a)
  have hfa1 : a - (⌊a⌋ : ℚ) < 1 := by
    have := Int.lt_floor_add_one a
    linarith
  have hfb0 : 0 ≤ b - (⌊b⌋ : ℚ) := sub_nonneg.mpr (Int.floor_le b)
  have hgfa : l.getD ⌊a⌋.toNat 0 ≤ l.getD ⌈a⌉.toNat 0 :=
    sorted_getD_mono hs (by omega) hia
  have hgfb : l.getD ⌊b⌋.toNat 0 ≤ l.getD ⌈b⌉.toNat 0 :=
    sorted_getD_mono hs (by omega) hib
  unfold interpAt
  by_cases hfl : ⌊a⌋ = ⌊b⌋
  · by_cases hcl : ⌈a⌉ = ⌈b⌉
    · rw [hfl, hcl]
      have hmul : (l.getD ⌈b⌉.toNat 0 - l.getD ⌊b⌋.toNat 0) * (a - (⌊b⌋ : ℚ)) ≤
          (l.getD ⌈b⌉.toNat 0 - l.getD ⌊b⌋.toNat 0) * (b - (⌊b⌋ : ℚ)) := by
        apply mul_le_mul_of_nonneg_left (by linarith) (by linarith)
      linarith
    · -- same floor, different ceil: a must be an exact integer hit and ⌈b⌉ = ⌊a⌋ + 1
      have hca' : ⌈a⌉ ≤ ⌊a⌋ + 1 := Int.ceil_le_floor_add_one a
      have hcb' : ⌈b⌉ ≤ ⌊b⌋ + 1 := Int.ceil_le_floor_add_one b
      have hcaa : ⌈a⌉ = ⌊a⌋ := by omega
      have hcbb : ⌈b⌉ = ⌊b⌋ + 1 := by omega
      have haint : a = (⌊a⌋ : ℚ) := by
        have h1 : a ≤ (⌈a⌉ : ℚ) := Int.le_ceil a
        rw [hcaa] at h1
        exact le_antisymm h1 (Int.floor_le a)
      rw [hcaa, hfl, hcbb]
      have hgf : l.getD ⌊b⌋.toNat 0 ≤ l.getD (⌊b⌋ + 1).toNat 0 :=
        sorted_getD_mono hs (by omega) (by omega)
      have hmul : 0 ≤ (l.getD (⌊b⌋ + 1).toNat 0 - l.getD ⌊b⌋.toNat 0) * (b - (⌊b⌋ : ℚ)) :=
        mul_nonneg (by linarith) hfb0
      simp only [sub_self, zero_mul, add_zero]
      linarith [hmul]
  · -- different floors: chain through the boundary elements
    have hstep : ⌈a⌉ ≤ ⌊b⌋ := by
      have := Int.ceil_le_floor_add_one a
      omega
    have hchain1 : interpAt l a ≤ l.getD ⌈a⌉.toNat 0 := by
      unfold interpAt
      nlinarith [hgfa, hfa0, hfa1]
    have hchain2 : l.getD ⌈a⌉.toNat 0 ≤ l.getD ⌊b⌋.toNat 0 :=
      sorted_getD_mono hs (by omega) hifb
    have hchain3 : l.getD ⌊b⌋.toNat 0 ≤ interpAt l b := by
      unfold interpAt
      nlinarith [hgfb, hfb0]
    calc interpAt l a ≤ l.getD ⌈a⌉.toNat 0 := hchain1
      _ ≤ l.getD ⌊b⌋.toNat 0 := hchain2
      _ ≤ interpAt l b := hchain3

theorem percentile_getD_mono (l : List ℚ) (hs : List.Sorted (· ≤ ·) l) (hl : l ≠ [])
    {p q : ℚ} (h0 : 0 ≤ p) (hpq : p ≤ q) (h100 : q ≤ 100) :
    (percentile l p).getD 0 ≤ (percentile l q).getD 0 := by
  have hlen : 1 ≤ l.length := List.length_pos.mpr hl
  rw [percentile_eq_interpAt l p hl, percentile_eq_interpAt l q hl, Option.getD_some,
    Option.getD_some]
  have hfac : (0 : ℚ) ≤ (l.length : ℚ) - 1 := by
    have : (1 : ℚ) ≤ (l.length : ℚ) := by exact_mod_cast hlen
    linarith
  apply interpAt_mono hs hlen
  · positivity
  · apply mul_le_mul_of_nonneg_right _ hfac
    linarith
  · have hq1 : q / 100 ≤ 1 := by linarith
    calc q / 100 * ((l.length : ℚ) - 1) ≤ 1 * ((l.length : ℚ) - 1) :=
          mul_le_mul_of_nonneg_right hq1 hfac
      _ = (l.length : ℚ) - 1 := one_mul _


theorem fin_add (a b : ℚ) : PyFloat.add (.fin a) (.fin b) = .fin (a + b) := rfl

theorem fin_mul (a b : ℚ) : PyFloat.mul (.fin a) (.fin b) = .fin (a * b) := rfl

theorem fin_sub (a b : ℚ) : PyFloat.sub (.fin a) (.fin b) = .fin (a - b) := by
  rw [PyFloat.sub]
  show PyFloat.add (.fin a) (.fin (-b)) = _
  rw [fin_add, ← sub_eq_add_neg]

theorem fin_le (a b : ℚ) : PyFloat.le (.fin a) (.fin b) = decide (a ≤ b) := rfl

theorem fin_lt (a b : ℚ) : PyFloat.lt (.fin a) (.fin b) = decide (a < b) := rfl

theorem fin_div_ne (a b : ℚ) (h : b ≠ 0) : PyFloat.div (.fin a) (.fin b) = .fin (a / b) := by
  simp [PyFloat.div, h]

theorem getD_map_fin (l : List ℚ) (n : ℕ) :
    (l.map PyFloat.fin).getD n (.fin 0) = .fin (l.getD n 0) := by
  rw [List.getD_eq_getElem?_getD, List.getD_eq_getElem?_getD, List.getElem?_map]
  cases l[n]? <;> rfl

theorem option_getD_map_fin (o : Option ℚ) :
    (o.map PyFloat.fin).getD (.fin 0) = .fin (o.getD 0) := by
  cases o <;> rfl

theorem orderedInsert_map_fin (a : ℚ) (l : List ℚ) :
    List.orderedInsert pfLe (.fin a) (l.map PyFloat.fin) =
      (List.orderedInsert (· ≤ ·) a l).map PyFloat.fin := by
  induction l with
  | nil => rfl
  | cons b t ih =>
    simp only [List.map_cons, List.orderedInsert]
    by_cases hab : a ≤ b
    · rw [if_pos (by simp [pfLe, fin_le, hab]), if_pos hab]
      rfl
    · rw [if_neg (by simp [pfLe, fin_le, hab]), if_neg hab, List.map_cons, ih]

theorem insertionSort_map_fin (l : List ℚ) :
    List.insertionSort pfLe (l.map PyFloat.fin) =
      (List.insertionSort (· ≤ ·) l).map PyFloat.fin := by
  induction l with
  | nil => rfl
  | cons a t ih => simp only [List.map_cons, List.insertionSort, ih, orderedInsert_map_fin]

theorem pfPercentile_map_fin (l : List ℚ) (p : ℚ) :
    pfPercentile (l.map PyFloat.fin) p = (percentile l p).map PyFloat.fin := by
  unfold pfPercentile percentile
  simp only [List.length_map]
  by_cases h0 : l.length = 0
  · simp [h0]
  · by_cases h1 : l.length = 1
    · rw [if_neg h0, if_pos h1, if_neg h0, if_pos h1, Option.map_some', getD_map_fin]
    · rw [if_neg h0, if_neg h1, if_neg h0, if_neg h1]
      by_cases heq : ⌊p / 100 * ((l.length : ℚ) - 1)⌋ = ⌈p / 100 * ((l.length : ℚ) - 1)⌉
      · rw [if_pos heq, if_pos heq, Option.map_some', getD_map_fin]
      · rw [if_neg heq, if_neg heq, Option.map_some', getD_map_fin, getD_map_fin,
          fin_sub, fin_mul, fin_add]

theorem foldl_add_fin : ∀ (l : List ℚ) (a : ℚ),
    (l.map PyFloat.fin).foldl PyFloat.add (.fin a) = .fin (l.foldl (· + ·) a)
  | [], _ => rfl
  | b :: t, a => by
    simp only [List.map_cons, List.foldl_cons, fin_add]
    exact foldl_add_fin t (a + b)

theorem foldl_add_eq_sum : ∀ (l : List ℚ) (a : ℚ), l.foldl (· + ·) a = a + l.sum
  | [], a => by simp
  | b :: t, a => by
    rw [List.foldl_cons, foldl_add_eq_sum t (a + b), List.sum_cons, add_assoc]

theorem pfSum_map_fin (l : List ℚ) : pfSum (l.map PyFloat.fin) = .fin l.sum := by
  unfold pfSum
  rw [foldl_add_fin l 0, foldl_add_eq_sum, zero_add]

theorem headD_map_fin (l : List ℚ) : (l.map PyFloat.fin).headD (.fin 0) = .fin (l.headD 0) := by
  cases l <;> rfl

theorem getLastD_map_fin : ∀ (l : List ℚ) (d : ℚ),
    (l.map PyFloat.fin).getLastD (.fin d) = .fin (l.getLastD d)
  | [], _ => rfl
  | a :: t, d => by
    rw [List.map_cons, List.getLastD_cons, List.getLastD_cons]
    exact getLastD_map_fin t a

theorem countP_lt_map_fin (l : List ℚ) (lf uf : ℚ) :
    (l.map PyFloat.fin).countP
        (fun x => PyFloat.lt x (.fin lf) || PyFloat.lt (.fin uf) x) =
      l.countP (fun x => decide (x < lf) || decide (uf < x)) := by
  rw [List.countP_map]
  rfl

theorem isEmpty_map_fin (l : List ℚ) : (l.map PyFloat.fin).isEmpty = l.isEmpty := by
  cases l <;> rfl

theorem all_finite_exists : ∀ (nl : List PyFloat), nl.all PyFloat.isFinite = true →
    ∃ qs : List ℚ, nl = qs.map PyFloat.fin
  | [], _ => ⟨[], rfl⟩
  | x :: t, h => by
    rw [List.all_cons, Bool.and_eq_true] at h
    obtain ⟨qs, hqs⟩ := all_finite_exists t h.2
    cases x with
    | fin q => exact ⟨q :: qs, by rw [List.map_cons, hqs]⟩
    | nan => exact absurd h.1 (by simp [PyFloat.isFinite])
    | inf => exact absurd h.1 (by simp [PyFloat.isFinite])
    | ninf => exact absurd h.1 (by simp [PyFloat.isFinite])

theorem numericSummary_map_fin (vs : List Val) (qs : List ℚ)
    (hq : numericLike vs = qs.map PyFloat.fin) (hne : qs ≠ []) :
    numericSummary vs = some (NumericSummary.mk
      (.fin ((qs.insertionSort (· ≤ ·)).headD 0))
      (.fin ((qs.insertionSort (· ≤ ·)).getLastD 0))
      (.fin ((qs.insertionSort (· ≤ ·)).sum / (qs.length : ℚ)))
      (.fin ((percentile (qs.insertionSort (· ≤ ·)) 25).getD 0))
      (.fin ((percentile (qs.insertionSort (· ≤ ·)) 50).getD 0))
      (.fin ((percentile (qs.insertionSort (· ≤ ·)) 75).getD 0))
      (.fin ((percentile (qs.insertionSort (· ≤ ·)) 75).getD 0 -
        (percentile (qs.insertionSort (· ≤ ·)) 25).getD 0))
      (.fin ((percentile (qs.insertionSort (· ≤ ·)) 25).getD 0 -
        1.5 * ((percentile (qs.insertionSort (· ≤ ·)) 75).getD 0 -
          (percentile (qs.insertionSort (· ≤ ·)) 25).getD 0)))
      (.fin ((percentile (qs.insertionSort (· ≤ ·)) 75).getD 0 +
        1.5 * ((percentile (qs.insertionSort (· ≤ ·)) 75).getD 0 -
          (percentile (qs.insertionSort (· ≤ ·)) 25).getD 0)))
      ((qs.insertionSort (· ≤ ·)).countP (fun x =>
        decide (x < (percentile (qs.insertionSort (· ≤ ·)) 25).getD 0 -
          1.5 * ((percentile (qs.insertionSort (· ≤ ·)) 75).getD 0 -
            (percentile (qs.insertionSort (· ≤ ·)) 25).getD 0)) ||
        decide ((percentile (qs.insertionSort (· ≤ ·)) 75).getD 0 +
          1.5 * ((percentile (qs.insertionSort (· ≤ ·)) 75).getD 0 -
            (percentile (qs.insertionSort (· ≤ ·)) 25).getD 0) < x)))) := by
  have hqne : qs.isEmpty = false := by
    cases qs with
    | nil => exact absurd rfl hne
    | cons a t => rfl
  unfold numericSummary
  rw [hq]
  rw [if_neg (by rw [isEmpty_map_fin, hqne]; exact Bool.false_ne_true)]
  simp only [insertionSort_map_fin, pfPercentile_map_fin, option_getD_map_fin,
    fin_sub, fin_mul, fin_add, pfSum_map_fin, headD_map_fin, getLastD_map_fin,
    countP_lt_map_fin, List.length_map, List.length_insertionSort]
  rw [fin_div_ne _ _ (by
    have : 0 < qs.length := List.length_pos.mpr hne
    exact_mod_cast Nat.pos_iff_ne_zero.mp this )]

/-- C5 (counterexample): Python's float() coerces the text "nan" to NaN, so a
column holding the single text value "nan" gets a numeric summary whose
quantiles are NaN; the claimed invariant p25 ≤ p50 is then false (NaN is
incomparable), refuting the claim as stated. -/
theorem C5_nan_breaks_invariants :
    (profileColumn "SPACE" "ASSET" "TXT" ["TXT"] [[Val.vStr "nan"]]).toOption.map
        (fun p => p.numeric_summary.map (fun ns => (ns.p25, PyFloat.le ns.p25 ns.p50))) =
      some (some (PyFloat.nan, false)) :=
  by decide

/-- C5 (amended): for every non-empty numeric subset consisting of finite
values only (no NaN or infinity enters via coercion), the numeric summary
satisfies p25 ≤ p50 ≤ p75, iqr = p75 − p25, lower_fence = p25 − 1.5·iqr ≤
p25, upper_fence = p75 + 1.5·iqr ≥ p75, and outlier_count equals the number
of numeric values strictly below the lower fence or strictly above the upper
fence; on subsets containing NaN the order invariants fail (see the
counterexample). -/
theorem C5_numeric_summary_invariants (vs : List Val) (ns : NumericSummary)
    (h : numericSummary vs = some ns)
    (hfin : (numericLike vs).all PyFloat.isFinite = true) :
    PyFloat.le ns.p25 ns.p50 = true ∧ PyFloat.le ns.p50 ns.p75 = true ∧
      ns.iqr = PyFloat.sub ns.p75 ns.p25 ∧
      ns.lower_fence = PyFloat.sub ns.p25 (PyFloat.mul (.fin 1.5) ns.iqr) ∧
      PyFloat.le ns.lower_fence ns.p25 = true ∧
      ns.upper_fence = PyFloat.add ns.p75 (PyFloat.mul (.fin 1.5) ns.iqr) ∧
      PyFloat.le ns.p75 ns.upper_fence = true ∧
      ns.outlier_count = (numericLike vs).countP
        (fun x => PyFloat.lt x ns.lower_fence || PyFloat.lt ns.upper_fence x) := by
  obtain ⟨qs, hq⟩ := all_finite_exists (numericLike vs) hfin
  have hne : qs ≠ [] := by
    rintro rfl
    unfold numericSummary at h
    rw [hq] at h
    simp at h
  rw [numericSummary_map_fin vs qs hq hne] at h
  obtain rfl := (Option.some.inj h).symm
  set s := qs.insertionSort (· ≤ ·) with hsdef
  have hsorted : List.Sorted (· ≤ ·) s := List.sorted_insertionSort (· ≤ ·) qs
  have hperm : List.Perm s qs := List.perm_insertionSort (· ≤ ·) qs
  have hsne : s ≠ [] := by
    intro hnil
    have := hperm.length_eq
    rw [hnil] at this
    exact hne (List.length_eq_zero.mp this.symm)
  have h2550 : (percentile s 25).getD 0 ≤ (percentile s 50).getD 0 :=
    percentile_getD_mono s hsorted hsne (by norm_num) (by norm_num) (by norm_num)
  have h5075 : (percentile s 50).getD 0 ≤ (percentile s 75).getD 0 :=
    percentile_getD_mono s hsorted hsne (by norm_num) (by norm_num) (by norm_num)
  refine ⟨?_, ?_, ?_, ?_, ?_, ?_, ?_, ?_⟩
  · simpa [fin_le] using h2550
  · simpa [fin_le] using h5075
  · simp only [fin_sub]
  · simp only [fin_mul, fin_sub]
  · simp only [fin_le, decide_eq_true_eq]
    linarith
  · simp only [fin_mul, fin_add]
  · simp only [fin_le, decide_eq_true_eq]
    linarith
  · dsimp only
    rw [hq, countP_lt_map_fin]
    exact (hperm.countP_eq _).symm ▸ rfl

theorem C5_numeric_summary_invariants_witness :
    numericSummary [Val.vInt 7] = some (NumericSummary.mk (.fin 7) (.fin 7) (.fin 7)
        (.fin 7) (.fin 7) (.fin 7) (.fin 0) (.fin 7) (.fin 7) 0) ∧
      (numericLike [Val.vInt 7]).all PyFloat.isFinite = true ∧
      PyFloat.le (PyFloat.fin 7) (PyFloat.fin 7) = true := by
  have h : numericSummary [Val.vInt 7] = some (NumericSummary.mk (.fin 7) (.fin 7) (.fin 7)
      (.fin 7) (.fin 7) (.fin 7) (.fin 0) (.fin 7) (.fin 7) 0) := by
    rw [numericSummary_map_fin [Val.vInt 7] [7] (by decide) (by decide)]
    norm_num [percentile, List.insertionSort, List.orderedInsert, NumericSummary.mk.injEq,
      List.countP, List.countP.go]
  exact ⟨h, by decide, (C5_numeric_summary_invariants [Val.vInt 7] _ h (by decide)).1⟩

/-- Proof helper: evaluate ceilings through floors. -/
theorem ceil_as_floor (q : ℚ) : ⌈q⌉ = -⌊-q⌋ := by rw [Int.floor_neg]; ring

/-- C6: on the sample [10,10,20,20,30,30,40,40,50,100] the profiler's numeric
summary is exactly min=10, max=100, mean=35, p25=20, p50=30, p75=40, iqr=20,
lower_fence=-10, upper_fence=70, outlier_count=1 (the value 100; every
double operation involved is exact). -/
theorem C6_sample_numeric_summary :
    (profileColumn "SPACE" "ASSET" "AMOUNT" ["AMOUNT"] sampleC6).toOption.map
        (fun p => p.numeric_summary) =
      some (some (NumericSummary.mk (.fin 10) (.fin 100) (.fin 35) (.fin 20) (.fin 30)
        (.fin 40) (.fin 20) (.fin (-10)) (.fin 70) 1)) := by
  have hp25 : percentile [(10:ℚ),10,20,20,30,30,40,40,50,100] 25 = some 20 := by
    simp only [percentile, ceil_as_floor]
    norm_num
    show (20:ℚ) + ((20:ℚ) - (20:ℚ)) * (1/4) = 20
    norm_num
  have hp50 : percentile [(10:ℚ),10,20,20,30,30,40,40,50,100] 50 = some 30 := by
    simp only [percentile, ceil_as_floor]
    norm_num
    show (30:ℚ) + ((30:ℚ) - (30:ℚ)) * (1/2) = 30
    norm_num
  have hp75 : percentile [(10:ℚ),10,20,20,30,30,40,40,50,100] 75 = some 40 := by
    simp only [percentile, ceil_as_floor]
    norm_num
    show (40:ℚ) + ((40:ℚ) - (40:ℚ)) * (3/4) = 40
    norm_num
  have hsort : List.insertionSort (· ≤ ·) [(10:ℚ),10,20,20,30,30,40,40,50,100] =
      [(10:ℚ),10,20,20,30,30,40,40,50,100] := by decide
  have hns : numericSummary (nonNullValuesOf sampleC6) =
      some (NumericSummary.mk (.fin 10) (.fin 100) (.fin 35) (.fin 20) (.fin 30)
        (.fin 40) (.fin 20) (.fin (-10)) (.fin 70) 1) := by
    rw [numericSummary_map_fin (nonNullValuesOf sampleC6)
      [(10:ℚ),10,20,20,30,30,40,40,50,100] (by decide) (by decide)]
    simp only [hsort, hp25, hp50, hp75, Option.getD_some]
    simp only [show ((20:ℚ) - 1.5 * (40 - 20)) = -10 from by norm_num,
      show ((40:ℚ) + 1.5 * (40 - 20)) = 70 from by norm_num,
      Option.some.injEq, NumericSummary.mk.injEq, PyFloat.fin.injEq]
    refine ⟨by decide, by decide, ?_, trivial, trivial, trivial, by norm_num, by norm_num,
      by norm_num, by decide⟩
    norm_num
  unfold profileColumn
  rw [if_neg (by decide)]
  simp only [Except.toOption, Option.map_some']
  exact congrArg some hns

/-- The lexicographic character-list order is total. -/
theorem charListLe_total : ∀ s t : List Char, charListLe s t = true ∨ charListLe t s = true
  | [], _ => Or.inl rfl
  | _ :: _, [] => Or.inr rfl
  | a :: as, b :: bs => by
    simp only [charListLe, Bool.or_eq_true, Bool.and_eq_true, beq_iff_eq, decide_eq_true_eq]
    rcases lt_trichotomy a b with h | h | h
    · exact Or.inl (Or.inl h)
    · subst h
      rcases charListLe_total as bs with h2 | h2
      · exact Or.inl (Or.inr ⟨rfl, h2⟩)
      · exact Or.inr (Or.inr ⟨rfl, h2⟩)
    · exact Or.inr (Or.inl h)

theorem charListLe_trans : ∀ s t u : List Char,
    charListLe s t = true → charListLe t u = true → charListLe s u = true
  | [], _, _, _, _ => rfl
  | _ :: _, [], _, h, _ => by simp [charListLe] at h
  | _ :: _, _ :: _, [], _, h => by simp [charListLe] at h
  | a :: as, b :: bs, c :: cs, h1, h2 => by
    simp only [charListLe, Bool.or_eq_true, Bool.and_eq_true, beq_iff_eq,
      decide_eq_true_eq] at h1 h2 ⊢
    rcases h1 with h1 | ⟨rfl, h1⟩
    · rcases h2 with h2 | ⟨rfl, h2⟩
      · exact Or.inl (lt_trans h1 h2)
      · exact Or.inl h1
    · rcases h2 with h2 | ⟨rfl, h2⟩
      · exact Or.inl h2
      · exact Or.inr ⟨rfl, charListLe_trans as bs cs h1 h2⟩

theorem catKeyLe_total (a b : Val × ℕ) : catKeyLe a b ∨ catKeyLe b a := by
  unfold catKeyLe
  rcases Nat.lt_trichotomy a.2 b.2 with h | h | h
  · exact Or.inr (Or.inl h)
  · rcases charListLe_total (pyStr a.1).data (pyStr b.1).data with h2 | h2
    · exact Or.inl (Or.inr ⟨h, h2⟩)
    · exact Or.inr (Or.inr ⟨h.symm, h2⟩)
  · exact Or.inl (Or.inl h)

theorem catKeyLe_trans (a b c : Val × ℕ) :
    catKeyLe a b → catKeyLe b c → catKeyLe a c := by
  unfold catKeyLe
  rintro (h1 | ⟨h1, h1s⟩) (h2 | ⟨h2, h2s⟩)
  · exact Or.inl (by omega)
  · exact Or.inl (by omega)
  · exact Or.inl (by omega)
  · exact Or.inr ⟨by omega, charListLe_trans _ _ _ h1s h2s⟩

theorem bumpFreq_ne_nil (acc : List (Val × ℕ)) (v : Val) : bumpFreq acc v ≠ [] := by
  cases acc with
  | nil => simp [bumpFreq]
  | cons kv rest =>
    obtain ⟨k, c⟩ := kv
    simp only [bumpFreq]
    split <;> simp

theorem foldl_bumpFreq_ne_nil : ∀ (l : List Val) (acc : List (Val × ℕ)), acc ≠ [] →
    l.foldl bumpFreq acc ≠ []
  | [], _, h => h
  | v :: rest, acc, _ =>
    foldl_bumpFreq_ne_nil rest (bumpFreq acc v) (bumpFreq_ne_nil acc v)

theorem pyFreq_ne_nil (vs : List Val) (h : vs ≠ []) : pyFreq vs ≠ [] := by
  cases vs with
  | nil => exact absurd rfl h
  | cons v rest =>
    unfold pyFreq
    rw [List.foldl_cons]
    exact foldl_bumpFreq_ne_nil rest (bumpFreq [] v) (bumpFreq_ne_nil [] v)

/-- C7: for every non-empty collection of non-null values, a categorical
summary is produced exactly when unique_values ≤ 50 or
unique_values ≤ ⌊non_null_count / 2⌋; when produced, top_values is ordered by
descending count with ties by ascending string form, holds at most 20 entries
each carrying the raw value, its count and the fraction count/non_null_count,
and concentration equals the fraction of the single most frequent value. -/
theorem C7_categorical_summary (vs : List Val) (hvs : vs ≠ []) :
    ((categoricalSummary vs).isSome ↔
      ((pyFreq vs).length ≤ 50 ∨ (pyFreq vs).length ≤ vs.length / 2)) ∧
    (∀ cs, categoricalSummary vs = some cs →
      cs.total_sampled = vs.length ∧
      cs.unique_values = (pyFreq vs).length ∧
      cs.top_values.length ≤ 20 ∧
      List.Pairwise (fun e1 e2 => e2.count ≤ e1.count ∧
        (e1.count = e2.count →
          charListLe (pyStr e1.value).data (pyStr e2.value).data = true)) cs.top_values ∧
      (∀ e ∈ cs.top_values, (e.value, e.count) ∈ pyFreq vs ∧
        e.fraction = (e.count : ℚ) / (vs.length : ℚ)) ∧
      (∃ m, cs.top_values.head? = some m ∧ cs.concentration = some m.fraction ∧
        ∀ kv ∈ pyFreq vs, kv.2 ≤ m.count)) := by
  haveI instTot : IsTotal (Val × ℕ) catKeyLe := ⟨catKeyLe_total⟩
  haveI instTrans : IsTrans (Val × ℕ) catKeyLe := ⟨catKeyLe_trans⟩
  have hne : ¬ vs.isEmpty = true := fun h => hvs (List.isEmpty_iff.mp h)
  have hfreqne : pyFreq vs ≠ [] := pyFreq_ne_nil vs hvs
  have hsorted : List.Sorted catKeyLe (List.insertionSort catKeyLe (pyFreq vs)) :=
    List.sorted_insertionSort catKeyLe (pyFreq vs)
  have hperm : List.Perm (List.insertionSort catKeyLe (pyFreq vs)) (pyFreq vs) :=
    List.perm_insertionSort catKeyLe (pyFreq vs)
  have hsortne : List.insertionSort catKeyLe (pyFreq vs) ≠ [] := by
    intro hnil
    have := hperm.length_eq
    rw [hnil] at this
    exact hfreqne (List.length_eq_zero.mp this.symm)
  obtain ⟨m0, ms, hm0⟩ := List.exists_cons_of_ne_nil hsortne
  have hgate_iff : ((pyFreq vs).length ≤ 50 ∨
      (pyFreq vs).length ≤ max 1 (vs.length / 2)) ↔
      ((pyFreq vs).length ≤ 50 ∨ (pyFreq vs).length ≤ vs.length / 2) := by
    by_cases h12 : 1 ≤ vs.length / 2
    · rw [Nat.max_eq_right h12]
    · rw [Nat.max_eq_left (by omega)]
      omega
  unfold categoricalSummary
  rw [if_neg hne]
  by_cases hg : ((pyFreq vs).length ≤ 50 ∨ (pyFreq vs).length ≤ max 1 (vs.length / 2))
  · rw [if_pos hg]
    refine ⟨by simpa using hgate_iff.mp hg, ?_⟩
    intro cs hcs
    obtain rfl := (Option.some.inj hcs).symm
    refine ⟨rfl, rfl, ?_, ?_, ?_, ?_⟩
    · simp [List.length_take]
    · have hpw : List.Pairwise catKeyLe
          ((List.insertionSort catKeyLe (pyFreq vs)).take 20) :=
        hsorted.sublist (List.take_sublist 20 _)
      rw [List.pairwise_map]
      refine hpw.imp ?_
      intro a b hab
      rcases hab with hlt | ⟨heq, hle⟩
      · refine ⟨Nat.le_of_lt hlt, fun h => ?_⟩
        dsimp only at h
        omega
      · exact ⟨Nat.le_of_eq heq.symm, fun _ => hle⟩
    · intro e he
      rw [List.mem_map] at he
      obtain ⟨kv, hkv, rfl⟩ := he
      refine ⟨?_, rfl⟩
      have hkv2 : kv ∈ List.insertionSort catKeyLe (pyFreq vs) :=
        List.mem_of_mem_take hkv
      simpa using hperm.mem_iff.mp hkv2
    · refine ⟨TopEntry.mk m0.1 m0.2 ((m0.2 : ℚ) / (vs.length : ℚ)), ?_, ?_, ?_⟩
      · rw [hm0]
        rw [show (20 : ℕ) = 19 + 1 from rfl, List.take_succ_cons]
        simp
      · rw [hm0]
        rw [show (20 : ℕ) = 19 + 1 from rfl, List.take_succ_cons]
        simp
      · intro kv hkv
        have hkv2 : kv ∈ List.insertionSort catKeyLe (pyFreq vs) :=
          hperm.mem_iff.mpr hkv
        rw [hm0] at hkv2
        rcases List.mem_cons.mp hkv2 with rfl | hkv3
        · exact le_refl _
        · have hrel : catKeyLe m0 kv := by
            rw [hm0] at hsorted
            exact List.rel_of_sorted_cons hsorted kv hkv3
          rcases hrel with hlt | ⟨heq, _⟩
          · exact Nat.le_of_lt hlt
          · dsimp only
            omega
  · rw [if_neg hg]
    refine ⟨by simpa using fun h => hg (hgate_iff.mpr h), ?_⟩
    intro cs hcs
    exact absurd hcs (by simp)

theorem C7_categorical_summary_witness :
    ([Val.vStr "A", Val.vStr "A", Val.vStr "B"] ≠ []) ∧
    (((categoricalSummary [Val.vStr "A", Val.vStr "A", Val.vStr "B"]).isSome ↔
      ((pyFreq [Val.vStr "A", Val.vStr "A", Val.vStr "B"]).length ≤ 50 ∨
        (pyFreq [Val.vStr "A", Val.vStr "A", Val.vStr "B"]).length ≤
          [Val.vStr "A", Val.vStr "A", Val.vStr "B"].length / 2)) ∧
    (∀ cs, categoricalSummary [Val.vStr "A", Val.vStr "A", Val.vStr "B"] = some cs →
      cs.total_sampled = [Val.vStr "A", Val.vStr "A", Val.vStr "B"].length ∧
      cs.unique_values = (pyFreq [Val.vStr "A", Val.vStr "A", Val.vStr "B"]).length ∧
      cs.top_values.length ≤ 20 ∧
      List.Pairwise (fun e1 e2 => e2.count ≤ e1.count ∧
        (e1.count = e2.count →
          charListLe (pyStr e1.value).data (pyStr e2.value).data = true)) cs.top_values ∧
      (∀ e ∈ cs.top_values, (e.value, e.count) ∈ pyFreq [Val.vStr "A", Val.vStr "A", Val.vStr "B"] ∧
        e.fraction = (e.count : ℚ) /
          ([Val.vStr "A", Val.vStr "A", Val.vStr "B"].length : ℚ)) ∧
      (∃ m, cs.top_values.head? = some m ∧ cs.concentration = some m.fraction ∧
        ∀ kv ∈ pyFreq [Val.vStr "A", Val.vStr "A", Val.vStr "B"], kv.2 ≤ m.count))) :=
  ⟨by decide, C7_categorical_summary [Val.vStr "A", Val.vStr "A", Val.vStr "B"] (by decide)⟩
